import Mathlib

/-!
Verification of the interaction-extraction / aggregation / graph-construction /
metrics pipeline of the HongLouMeng character-network repository.

The Python sources are shallowly embedded:
- `2_interaction_extraction.py`: sentence segmentation (`re.split` over a fixed
  delimiter class), keyword classification, the per-sentence extraction loop of
  `identify_interactions_advanced`, and the aggregation loop of `main`.
- `3_network_analysis.py`: `build_network` (a `networkx.DiGraph` is embedded as
  an explicit node list plus an association list of directed weighted edges,
  with insertion order preserved, as `networkx` preserves it), and the degree /
  weighted-degree part of `calculate_centrality_metrics` (the remaining metrics
  there are each wrapped in their own `try/except` returning a default, so they
  cannot affect control flow; the weighted-degree step is the one computation
  performed outside any guard).
-/

namespace HLM

/-- Python's `w in s` substring test on strings. -/
def strContains (s w : String) : Bool := decide (w.toList <:+: s.toList)

/-- The focal character, `TARGET_CHARACTER` of the source. -/
def TARGET_CHARACTER : String := "薛寶釵"

/-- The sentence-terminal delimiter class of `re.split(r'[。！？\n]', text)`. -/
def sentenceDelimiters : List Char := ['。', '！', '？', '\n']

/-- Splitting a character list at every delimiter occurrence, the semantics of
`re.split` over a single-character class: `n` delimiter occurrences produce
`n + 1` fragments, so consecutive delimiters produce empty fragments. -/
def splitOnDelims : List Char → List (List Char)
  | [] => [[]]
  | c :: cs =>
    match splitOnDelims cs with
    | [] => [[]]
    | s :: rest =>
      if c ∈ sentenceDelimiters then [] :: s :: rest else (c :: s) :: rest

/-- The Sentence Segmenter: `sentences = re.split(r'[。！？\n]', text)`. -/
def splitSentences (text : String) : List String :=
  (splitOnDelims text.toList).map fun cs => String.mk cs

/-- The three interaction types. -/
inductive InteractionType where
  | dialogue
  | action
  | coOccurrence
deriving DecidableEq

/-- Speech-act keywords (the `对话` branch of the source). -/
def dialogueKeywords : List String :=
  ["道", "說", "問", "答", "回", "笑", "叫", "勸", "罵"]

/-- Physical-action keywords (the `行为` branch of the source). -/
def actionKeywords : List String :=
  ["見", "遇", "訪", "來", "去", "送", "給", "拉", "推"]

/-- Python's `any(word in sentence for word in words)`. -/
def containsAnyWord (sentence : String) (words : List String) : Bool :=
  words.any fun w => strContains sentence w

/-- Interaction-type classification: default co-occurrence, overridden to
dialogue when a speech-act keyword occurs, else to action when a
physical-action keyword occurs. -/
def classifyInteraction (sentence : String) : InteractionType :=
  if containsAnyWord sentence dialogueKeywords then .dialogue
  else if containsAnyWord sentence actionKeywords then .action
  else .coOccurrence

/-- One raw interaction event, as built in `identify_interactions_advanced`. -/
structure InteractionEvent where
  source : String
  target : String
  chapter : Nat
  itype : InteractionType
  context : String
  sentence : String
deriving DecidableEq

/-- Python's `any(variant in sentence for variant in variants)`. -/
def hasAnyVariant (variants : List String) (sentence : String) : Bool :=
  variants.any fun v => strContains sentence v

/-- The context slice `sentences[max(0, i-1):min(len(sentences), i+2)]`:
truncated `Nat` subtraction gives the `max` clip and `take` the `min` clip. -/
def contextWindow (sentences : List String) (i : Nat) : List String :=
  (sentences.drop (i - 1)).take (i + 2 - (i - 1))

/-- The event record appended for one detected character pair: the focal
character as source, the detected character as target, the classified type,
and the rejoined context window. -/
def mkEvent (name : String) (chapter : Nat) (sentences : List String)
    (i : Nat) (sentence : String) : InteractionEvent :=
  { source := TARGET_CHARACTER
    target := name
    chapter := chapter
    itype := classifyInteraction sentence
    context := String.intercalate "。" (contextWindow sentences i)
    sentence := sentence }

/-- The body of the per-sentence loop of `identify_interactions_advanced`:
skip the sentence unless a focal variant occurs, then emit one event per other
cataloged character present (the focal character's own entry is skipped). -/
def eventsForSentence (targetVariants : List String)
    (otherCharacters : List (String × List String)) (chapter : Nat)
    (sentences : List String) (i : Nat) (sentence : String) :
    List InteractionEvent :=
  if hasAnyVariant targetVariants sentence then
    otherCharacters.flatMap fun cv =>
      if cv.1 = TARGET_CHARACTER then []
      else if hasAnyVariant cv.2 sentence then
        [mkEvent cv.1 chapter sentences i sentence]
      else []
  else []

/-- `identify_interactions_advanced`: split into sentences, then run the
per-sentence loop over the enumerated sequence, appending all emitted events. -/
def identifyInteractionsAdvanced (text : String) (targetVariants : List String)
    (otherCharacters : List (String × List String)) (chapter : Nat) :
    List InteractionEvent :=
  let sentences := splitSentences text
  sentences.enum.flatMap fun is =>
    eventsForSentence targetVariants otherCharacters chapter sentences is.1 is.2

/-- The per-key state of the aggregation dictionary in `main` of
`2_interaction_extraction.py`: `{'count': 0, 'types': defaultdict(int),
'chapters': set(), 'contexts': []}`. -/
structure EdgeData where
  count : Nat
  types : InteractionType → Nat
  chapters : Finset Nat
  contexts : List String

/-- The `defaultdict` default value for a fresh key. -/
def EdgeData.init : EdgeData :=
  { count := 0, types := fun _ => 0, chapters := ∅, contexts := [] }

/-- The `(source, target)` key of an event. -/
def eventKey (e : InteractionEvent) : String × String := (e.source, e.target)

/-- The four mutations the aggregation loop performs on one key's record:
increment `count`, increment the type bucket, insert the chapter, and append
the context only while fewer than 3 contexts are stored. -/
def updateEdgeData (d : EdgeData) (e : InteractionEvent) : EdgeData :=
  { count := d.count + 1
    types := fun t => if t = e.itype then d.types t + 1 else d.types t
    chapters := insert e.chapter d.chapters
    contexts :=
      if d.contexts.length < 3 then d.contexts ++ [e.context] else d.contexts }

/-- First-match association-list lookup (Python dict access by key; keys are
unique in a dict, and the embedding keeps them unique). -/
def lookupKey {β : Type} (k : String × String) :
    List ((String × String) × β) → Option β
  | [] => none
  | kv :: rest => if kv.1 = k then some kv.2 else lookupKey k rest

/-- In-place update of the entry at key `k` (Python `d[k] = f(d[k])`). -/
def updateAt {β : Type} (l : List ((String × String) × β))
    (k : String × String) (f : β → β) : List ((String × String) × β) :=
  l.map fun kv => if kv.1 = k then (kv.1, f kv.2) else kv

/-- One iteration of the aggregation loop: mutate the key's record when the
key exists, otherwise create it from the `defaultdict` default (insertion
order appends new keys at the end, as a Python dict does). -/
def aggStep (acc : List ((String × String) × EdgeData)) (e : InteractionEvent) :
    List ((String × String) × EdgeData) :=
  if (lookupKey (eventKey e) acc).isSome then
    updateAt acc (eventKey e) (fun d => updateEdgeData d e)
  else
    acc ++ [(eventKey e, updateEdgeData EdgeData.init e)]

/-- The Interaction Aggregator: fold the event stream into one record per
`(source, target)` key. -/
def aggregateInteractions (events : List InteractionEvent) :
    List ((String × String) × EdgeData) :=
  events.foldl aggStep []

/-- The aggregated record at a key, defaulting to the fresh record. -/
def keyVal (agg : List ((String × String) × EdgeData))
    (k : String × String) : EdgeData :=
  (lookupKey k agg).getD EdgeData.init

/-- The `Frequency` column written for a key (0 when the key was never seen). -/
def edgeFrequency (agg : List ((String × String) × EdgeData))
    (k : String × String) : Nat :=
  (keyVal agg k).count

/-- The stored context samples of a key. -/
def edgeContexts (agg : List ((String × String) × EdgeData))
    (k : String × String) : List String :=
  (keyVal agg k).contexts

/-- The sum of the type histogram's buckets of a key. -/
def typesTotal (d : EdgeData) : Nat :=
  d.types .dialogue + d.types .action + d.types .coOccurrence

/-- One row of the `interactions_v2.csv` table consumed by `build_network`
(`Source`, `Target`, `Frequency`). -/
structure AggregatedRow where
  source : String
  target : String
  frequency : Nat
deriving DecidableEq

/-- A `networkx.DiGraph` restricted to what the source uses: the node list in
insertion order and the weighted directed edges as an association list with
unique keys in insertion order. -/
structure DiGraph where
  nodes : List String
  edges : List ((String × String) × Nat)
deriving DecidableEq

/-- Node insertion: a no-op when the node exists, as in `networkx`. -/
def addNode (g : DiGraph) (v : String) : DiGraph :=
  if v ∈ g.nodes then g else { g with nodes := g.nodes ++ [v] }

/-- The loop body of `build_network`: missing endpoints are added as nodes
(`add_edge` adds them); an existing edge has its weight increased
(`G[source][target]['weight'] += weight`), a new edge is appended. -/
def addEdge (g : DiGraph) (s t : String) (w : Nat) : DiGraph :=
  let g' := addNode (addNode g s) t
  if (lookupKey (s, t) g'.edges).isSome then
    { g' with edges := updateAt g'.edges (s, t) (fun w0 => w0 + w) }
  else
    { g' with edges := g'.edges ++ [((s, t), w)] }

/-- `build_network`: fold the aggregated rows into a directed weighted graph. -/
def buildNetwork (rows : List AggregatedRow) : DiGraph :=
  rows.foldl (fun g r => addEdge g r.source r.target r.frequency) ⟨[], []⟩

/-- The `(source, target)` keys of the graph's edges. -/
def edgeKeys (g : DiGraph) : List (String × String) :=
  g.edges.map Prod.fst

/-- The weight stored at a key (0 when the edge is absent). -/
def weightOf (g : DiGraph) (k : String × String) : Nat :=
  (lookupKey k g.edges).getD 0

/-- `G.neighbors(v)` on a `DiGraph`: the successors of `v`, one per out-edge. -/
def neighbors (g : DiGraph) (v : String) : List String :=
  (g.edges.filter fun kv => decide (kv.1.1 = v)).map fun kv => kv.1.2

/-- Total frequency of the rows carrying a given `(source, target)` key. -/
def sumFreqKey (rows : List AggregatedRow) (k : String × String) : Nat :=
  ((rows.filter fun r => decide ((r.source, r.target) = k)).map
    fun r => r.frequency).sum

/-- Total frequency of the rows whose source is a given character. -/
def sumFreqBySource (rows : List AggregatedRow) (v : String) : Nat :=
  ((rows.filter fun r => decide (r.source = v)).map fun r => r.frequency).sum

/-- Total weight of the out-edges of a node. -/
def outWeight (g : DiGraph) (v : String) : Nat :=
  ((g.edges.filter fun kv => decide (kv.1.1 = v)).map fun kv => kv.2).sum

/-- `G.neighbors(v)` raises `NetworkXError` when `v` is not a node; the
fallible call is embedded as an `Except`. -/
def neighborsE (g : DiGraph) (v : String) : Except String (List String) :=
  if v ∈ g.nodes then .ok (neighbors g v) else .error "node not in digraph"

/-- The weighted-degree step of `calculate_centrality_metrics`:
`sum(G[target_char][neighbor]['weight'] for neighbor in
G.neighbors(target_char))`, performed outside any `try` or membership guard. -/
def focalWeightedDegree (g : DiGraph) (targetChar : String) :
    Except String Nat :=
  match neighborsE g targetChar with
  | .error e => .error e
  | .ok ns => .ok ((ns.map fun n => weightOf g (targetChar, n)).sum)

/-- In-degree of a node: the number of edges entering it. -/
def inDegree (g : DiGraph) (v : String) : Nat :=
  (g.edges.filter fun kv => decide (kv.1.2 = v)).length

/-- Out-degree of a node: the number of edges leaving it. -/
def outDegree (g : DiGraph) (v : String) : Nat :=
  (g.edges.filter fun kv => decide (kv.1.1 = v)).length

/-- The degree metrics `calculate_centrality_metrics` stores. The remaining
metrics of that function (betweenness, closeness, eigenvector, PageRank,
clustering) are each wrapped in their own `try/except` substituting a default,
so none of them can raise; they are omitted from the record as they play no
role in the control flow being verified. -/
structure FocalMetrics where
  in_degree : Nat
  out_degree : Nat
  total_degree : Nat
  weighted_degree : Nat
deriving DecidableEq

/-- `calculate_centrality_metrics`, up to the first computation that can
raise: in/out/total degree are guarded by `if target_char in G` and default to
0, but the weighted-degree sum calls `G.neighbors(target_char)` unguarded, so
the whole call raises when the focal character is not a node. -/
def calculateCentralityMetrics (g : DiGraph) (targetChar : String) :
    Except String FocalMetrics :=
  let inDeg := if targetChar ∈ g.nodes then inDegree g targetChar else 0
  let outDeg := if targetChar ∈ g.nodes then outDegree g targetChar else 0
  match focalWeightedDegree g targetChar with
  | .error e => .error e
  | .ok wd =>
      .ok { in_degree := inDeg, out_degree := outDeg,
            total_degree := inDeg + outDeg, weighted_degree := wd }

/-! Lemmas about the Sentence Segmenter. -/

theorem splitOnDelims_ne_nil (l : List Char) : splitOnDelims l ≠ [] := by
  cases l with
  | nil => simp [splitOnDelims]
  | cons c cs =>
    unfold splitOnDelims
    cases h : splitOnDelims cs with
    | nil => simp
    | cons s rest => dsimp only; split <;> simp

theorem mem_splitOnDelims_no_delim (l : List Char) :
    ∀ s ∈ splitOnDelims l, ∀ c ∈ s, c ∉ sentenceDelimiters := by
  induction l with
  | nil =>
    intro s hs
    simp only [splitOnDelims, List.mem_singleton] at hs
    subst hs; simp
  | cons c cs ih =>
    intro s hs
    unfold splitOnDelims at hs
    rcases h : splitOnDelims cs with _ | ⟨s0, rest⟩
    · exact absurd h (splitOnDelims_ne_nil cs)
    · rw [h] at hs
      dsimp only at hs
      by_cases hc : c ∈ sentenceDelimiters
      · rw [if_pos hc] at hs
        rcases List.mem_cons.mp hs with rfl | hs
        · simp
        · exact ih s (h ▸ hs)
      · rw [if_neg hc] at hs
        rcases List.mem_cons.mp hs with rfl | hs
        · intro d hd
          rcases List.mem_cons.mp hd with rfl | hd
          · exact hc
          · exact ih s0 (h ▸ List.mem_cons_self s0 rest) d hd
        · exact ih s (h ▸ List.mem_cons_of_mem s0 hs)

theorem length_splitOnDelims (l : List Char) :
    (splitOnDelims l).length =
      l.countP (fun c => decide (c ∈ sentenceDelimiters)) + 1 := by
  induction l with
  | nil => simp [splitOnDelims]
  | cons c cs ih =>
    unfold splitOnDelims
    rcases h : splitOnDelims cs with _ | ⟨s0, rest⟩
    · exact absurd h (splitOnDelims_ne_nil cs)
    · rw [h] at ih
      simp only [List.length_cons] at ih
      dsimp only
      by_cases hc : c ∈ sentenceDelimiters
      · rw [if_pos hc]
        simp only [List.countP_cons, List.length_cons]
        simp [hc]
        omega
      · rw [if_neg hc]
        simp only [List.countP_cons, List.length_cons]
        simp [hc]
        omega

/-- C6: interaction-type classification is a total function of the sentence
text with fixed priority: any speech-act keyword forces Dialogue; otherwise
any physical-action keyword forces Action; otherwise CoOccurrence; in
particular a sentence containing keywords of both kinds is Dialogue. -/
theorem c6_classification_priority (s : String) :
    (containsAnyWord s dialogueKeywords = true →
      classifyInteraction s = .dialogue) ∧
    (containsAnyWord s dialogueKeywords = false →
      containsAnyWord s actionKeywords = true →
      classifyInteraction s = .action) ∧
    (containsAnyWord s dialogueKeywords = false →
      containsAnyWord s actionKeywords = false →
      classifyInteraction s = .coOccurrence) ∧
    (containsAnyWord s dialogueKeywords = true →
      containsAnyWord s actionKeywords = true →
      classifyInteraction s = .dialogue) := by
  unfold classifyInteraction
  refine ⟨fun h => by rw [if_pos h],
          fun h1 h2 => by rw [if_neg (by simp [h1]), if_pos h2],
          fun h1 h2 => by rw [if_neg (by simp [h1]), if_neg (by simp [h2])],
          fun h1 _ => by rw [if_pos h1]⟩

/-- C6 witness: a concrete sentence containing the speech-act keyword 道 and
the physical-action keyword 見 is classified Dialogue. -/
theorem c6_classification_priority_witness :
    containsAnyWord "薛寶釵笑道見他" dialogueKeywords = true ∧
    containsAnyWord "薛寶釵笑道見他" actionKeywords = true ∧
    classifyInteraction "薛寶釵笑道見他" = .dialogue :=
  ⟨by decide, by decide,
    (c6_classification_priority "薛寶釵笑道見他").2.2.2 (by decide) (by decide)⟩

/-- C8 counterexample: consecutive delimiters produce an empty fragment, so
the segmented sequence used for indexing is not a sequence of non-empty
sentence strings. -/
theorem c8_counterexample :
    splitSentences "甲。。乙" = ["甲", "", "乙"] ∧
    ¬ (∀ s ∈ splitSentences "甲。。乙", s ≠ "") := by
  refine ⟨by decide, fun h => ?_⟩
  exact (h "" (by decide)) rfl

/-- C8 amended: the Sentence Segmenter produces an ordered sequence of
fragments none of which contains a delimiter character, with exactly one more
fragment than there are delimiter occurrences; fragments may be empty (from
consecutive delimiters or delimiters at the text boundary) and such empty
fragments remain in the sequence used for indexing. -/
theorem c8_amended (text : String) :
    (∀ s ∈ splitSentences text, ∀ c ∈ s.toList, c ∉ sentenceDelimiters) ∧
    (splitSentences text).length =
      text.toList.countP (fun c => decide (c ∈ sentenceDelimiters)) + 1 := by
  constructor
  · intro s hs c hc
    rcases List.mem_map.mp hs with ⟨cs, hcs, rfl⟩
    exact mem_splitOnDelims_no_delim text.toList cs hcs c hc
  · simpa [splitSentences] using length_splitOnDelims text.toList

/-! Association-list lemmas shared by the Aggregator and the Graph Builder. -/

theorem lookupKey_nil {β : Type} (k : String × String) :
    lookupKey (β := β) k [] = none := rfl

theorem lookupKey_cons {β : Type} (k : String × String)
    (kv : (String × String) × β) (rest : List ((String × String) × β)) :
    lookupKey k (kv :: rest) =
      if kv.1 = k then some kv.2 else lookupKey k rest := rfl

theorem updateAt_nil {β : Type} (k : String × String) (f : β → β) :
    updateAt (β := β) [] k f = [] := rfl

theorem updateAt_cons {β : Type} (k : String × String) (f : β → β)
    (kv : (String × String) × β) (rest : List ((String × String) × β)) :
    updateAt (kv :: rest) k f =
      (if kv.1 = k then (kv.1, f kv.2) else kv) :: updateAt rest k f := rfl

theorem lookupKey_append_none {β : Type} (k : String × String)
    {l1 : List ((String × String) × β)} (l2 : List ((String × String) × β))
    (h : lookupKey k l1 = none) :
    lookupKey k (l1 ++ l2) = lookupKey k l2 := by
  induction l1 with
  | nil => simp
  | cons kv rest ih =>
    rw [lookupKey_cons] at h
    rw [List.cons_append, lookupKey_cons]
    by_cases hk : kv.1 = k
    · rw [if_pos hk] at h; exact absurd h (by simp)
    · rw [if_neg hk] at h
      rw [if_neg hk]
      exact ih h

theorem lookupKey_append_some {β : Type} (k : String × String)
    {l1 : List ((String × String) × β)} (l2 : List ((String × String) × β))
    {v : β} (h : lookupKey k l1 = some v) :
    lookupKey k (l1 ++ l2) = some v := by
  induction l1 with
  | nil => simp [lookupKey_nil] at h
  | cons kv rest ih =>
    rw [lookupKey_cons] at h
    rw [List.cons_append, lookupKey_cons]
    by_cases hk : kv.1 = k
    · rw [if_pos hk] at h ⊢; exact h
    · rw [if_neg hk] at h
      rw [if_neg hk]
      exact ih h

theorem lookupKey_updateAt {β : Type} (l : List ((String × String) × β))
    (k k' : String × String) (f : β → β) :
    lookupKey k' (updateAt l k f) =
      if k' = k then (lookupKey k' l).map f else lookupKey k' l := by
  induction l with
  | nil => rw [updateAt_nil, lookupKey_nil]; split <;> simp
  | cons kv rest ih =>
    rw [updateAt_cons, lookupKey_cons, lookupKey_cons]
    by_cases h1 : kv.1 = k
    · rw [if_pos h1]
      by_cases h2 : kv.1 = k'
      · simp only [if_pos h2]
        have h3 : k' = k := h2 ▸ h1
        simp [h3]
      · simp only [if_neg h2]
        have h3 : k' ≠ k := fun he => h2 (he ▸ h1)
        simp only [if_neg h3] at ih ⊢
        exact ih
    · rw [if_neg h1]
      by_cases h2 : kv.1 = k'
      · simp only [if_pos h2]
        have h3 : k' ≠ k := fun he => h1 (h2.symm ▸ he)
        simp [h3]
      · simp only [if_neg h2]
        exact ih

theorem keys_updateAt {β : Type} (l : List ((String × String) × β))
    (k : String × String) (f : β → β) :
    (updateAt l k f).map Prod.fst = l.map Prod.fst := by
  induction l with
  | nil => rfl
  | cons kv rest ih =>
    rw [updateAt_cons]
    simp only [List.map_cons]
    rw [ih]
    by_cases h : kv.1 = k <;> simp [h]

theorem lookupKey_eq_none_iff {β : Type} (k : String × String)
    (l : List ((String × String) × β)) :
    lookupKey k l = none ↔ k ∉ l.map Prod.fst := by
  induction l with
  | nil => simp [lookupKey_nil]
  | cons kv rest ih =>
    rw [lookupKey_cons]
    by_cases h : kv.1 = k
    · simp [h]
    · simp only [if_neg h, List.map_cons, List.mem_cons, ih]
      constructor
      · intro hn hmem
        rcases hmem with hmem | hmem
        · exact h hmem.symm
        · exact hn hmem
      · intro hn hmem
        exact hn (Or.inr hmem)

theorem lookupKey_isSome_iff {β : Type} (k : String × String)
    (l : List ((String × String) × β)) :
    (lookupKey k l).isSome = true ↔ k ∈ l.map Prod.fst := by
  rw [Option.isSome_iff_ne_none, ne_eq, lookupKey_eq_none_iff, not_not]

theorem lookupKey_of_mem_nodup {β : Type} {l : List ((String × String) × β)}
    {kv : (String × String) × β} (hnd : (l.map Prod.fst).Nodup)
    (hmem : kv ∈ l) : lookupKey kv.1 l = some kv.2 := by
  induction l with
  | nil => simp at hmem
  | cons kv0 rest ih =>
    simp only [List.map_cons, List.nodup_cons] at hnd
    rcases List.mem_cons.mp hmem with rfl | hmem
    · rw [lookupKey_cons, if_pos rfl]
    · rw [lookupKey_cons]
      have hne : kv0.1 ≠ kv.1 := by
        intro he
        exact hnd.1 (he ▸ List.mem_map.mpr ⟨kv, hmem, rfl⟩)
      rw [if_neg hne]
      exact ih hnd.2 hmem

theorem updateAt_eq_of_not_mem {β : Type} {l : List ((String × String) × β)}
    {k : String × String} (f : β → β) (h : k ∉ l.map Prod.fst) :
    updateAt l k f = l := by
  induction l with
  | nil => rfl
  | cons kv rest ih =>
    simp only [List.map_cons, List.mem_cons, not_or] at h
    rw [updateAt_cons, if_neg (fun he => h.1 he.symm), ih h.2]

/-! Lemmas about the Interaction Aggregator. -/

theorem keyVal_aggStep (acc : List ((String × String) × EdgeData))
    (e : InteractionEvent) (k : String × String) :
    keyVal (aggStep acc e) k =
      if eventKey e = k then updateEdgeData (keyVal acc k) e
      else keyVal acc k := by
  unfold aggStep keyVal
  by_cases hp : (lookupKey (eventKey e) acc).isSome = true
  · rw [if_pos hp, lookupKey_updateAt]
    by_cases hk : eventKey e = k
    · rcases Option.isSome_iff_exists.mp hp with ⟨d, hd⟩
      rw [if_pos hk, if_pos hk.symm]
      rw [hk] at hd
      simp [hd]
    · rw [if_neg hk, if_neg (fun he => hk he.symm)]
  · rw [if_neg hp]
    have hnone : lookupKey (eventKey e) acc = none :=
      Option.not_isSome_iff_eq_none.mp hp
    by_cases hk : eventKey e = k
    · rw [if_pos hk]
      rw [lookupKey_append_none k _ (hk ▸ hnone), lookupKey_cons]
      rw [if_pos hk]
      rw [hk] at hnone
      simp [hnone]
    · rw [if_neg hk]
      cases hacc : lookupKey k acc with
      | none =>
        rw [lookupKey_append_none k _ hacc, lookupKey_cons]
        rw [if_neg hk, lookupKey_nil]
      | some v =>
        rw [lookupKey_append_some k _ hacc]

theorem keyVal_foldl (es : List InteractionEvent)
    (acc : List ((String × String) × EdgeData)) (k : String × String) :
    keyVal (es.foldl aggStep acc) k =
      (es.filter fun e => decide (eventKey e = k)).foldl
        updateEdgeData (keyVal acc k) := by
  induction es generalizing acc with
  | nil => rfl
  | cons e rest ih =>
    simp only [List.foldl_cons, List.filter_cons]
    by_cases h : eventKey e = k
    · rw [ih, keyVal_aggStep, if_pos h]
      simp [h]
    · rw [ih, keyVal_aggStep, if_neg h]
      simp [h]

theorem present_aggStep (acc : List ((String × String) × EdgeData))
    (e : InteractionEvent) (k : String × String) :
    (lookupKey k (aggStep acc e)).isSome = true ↔
      (lookupKey k acc).isSome = true ∨ eventKey e = k := by
  unfold aggStep
  by_cases hp : (lookupKey (eventKey e) acc).isSome = true
  · rw [if_pos hp, lookupKey_updateAt]
    by_cases hk : k = eventKey e
    · subst hk
      simp [hp]
    · rw [if_neg hk]
      constructor
      · exact Or.inl
      · rintro (h | h)
        · exact h
        · exact absurd h.symm hk
  · rw [if_neg hp]
    have hnone : lookupKey (eventKey e) acc = none :=
      Option.not_isSome_iff_eq_none.mp hp
    by_cases hk : eventKey e = k
    · rw [lookupKey_append_none k _ (hk ▸ hnone), lookupKey_cons, if_pos hk]
      simp [hk]
    · cases hacc : lookupKey k acc with
      | none =>
        rw [lookupKey_append_none k _ hacc, lookupKey_cons, if_neg hk,
          lookupKey_nil]
        simp [hacc, hk]
      | some v =>
        rw [lookupKey_append_some k _ hacc]
        simp [hacc]

theorem present_foldl (es : List InteractionEvent)
    (acc : List ((String × String) × EdgeData)) (k : String × String) :
    (lookupKey k (es.foldl aggStep acc)).isSome = true ↔
      (lookupKey k acc).isSome = true ∨ ∃ e ∈ es, eventKey e = k := by
  induction es generalizing acc with
  | nil => simp
  | cons e rest ih =>
    simp only [List.foldl_cons]
    rw [ih, present_aggStep]
    constructor
    · rintro (⟨h | h⟩ | ⟨e', he', hk⟩)
      · exact Or.inl h
      · exact Or.inr ⟨e, List.mem_cons_self e rest, h⟩
      · exact Or.inr ⟨e', List.mem_cons_of_mem e he', hk⟩
    · rintro (h | ⟨e', he', hk⟩)
      · exact Or.inl (Or.inl h)
      · rcases List.mem_cons.mp he' with rfl | he'
        · exact Or.inl (Or.inr hk)
        · exact Or.inr ⟨e', he', hk⟩

theorem count_foldl_update (l : List InteractionEvent) (d : EdgeData) :
    (l.foldl updateEdgeData d).count = d.count + l.length := by
  induction l generalizing d with
  | nil => simp
  | cons e rest ih =>
    simp only [List.foldl_cons, List.length_cons]
    rw [ih]
    unfold updateEdgeData
    simp only []
    omega

theorem typesTotal_update (d : EdgeData) (e : InteractionEvent) :
    typesTotal (updateEdgeData d e) = typesTotal d + 1 := by
  unfold typesTotal updateEdgeData
  cases h : e.itype <;> simp <;> omega

theorem typesTotal_foldl_update (l : List InteractionEvent) (d : EdgeData) :
    typesTotal (l.foldl updateEdgeData d) = typesTotal d + l.length := by
  induction l generalizing d with
  | nil => simp
  | cons e rest ih =>
    simp only [List.foldl_cons, List.length_cons]
    rw [ih, typesTotal_update]
    omega

theorem contexts_foldl_update (l : List InteractionEvent) (d : EdgeData)
    (h : d.contexts.length ≤ 3) :
    (l.foldl updateEdgeData d).contexts =
      (d.contexts ++ l.map fun e => e.context).take 3 := by
  induction l generalizing d with
  | nil =>
    simp only [List.foldl_nil, List.map_nil, List.append_nil]
    exact (List.take_of_length_le h).symm
  | cons e rest ih =>
    simp only [List.foldl_cons, List.map_cons]
    by_cases hlt : d.contexts.length < 3
    · have hstep : (updateEdgeData d e).contexts = d.contexts ++ [e.context] := by
        unfold updateEdgeData
        simp [hlt]
      have hlen : (updateEdgeData d e).contexts.length ≤ 3 := by
        rw [hstep, List.length_append]
        simp
        omega
      rw [ih (updateEdgeData d e) hlen, hstep, List.append_assoc,
        List.singleton_append]
    · have hlen3 : d.contexts.length = 3 := by omega
      have hstep : (updateEdgeData d e).contexts = d.contexts := by
        unfold updateEdgeData
        simp [hlt]
      rw [ih (updateEdgeData d e) (hstep ▸ h), hstep,
        List.take_append_eq_append_take, List.take_append_eq_append_take,
        hlen3]
      simp

/-- The take-3 prefix of a long enough list absorbs anything appended. -/
theorem take3_append {α : Type} (x y : List α) (h : 3 ≤ x.length) :
    (x ++ y).take 3 = x.take 3 := by
  rw [List.take_append_eq_append_take, Nat.sub_eq_zero_of_le h,
    List.take_zero, List.append_nil]

/-- C4: the Aggregator creates a record exactly for the keys that occur in the
event stream, and each record's frequency equals the number of raw events
whose `(source, target)` pair equals that key. -/
theorem c4_frequency_counts_events (events : List InteractionEvent)
    (k : String × String) :
    ((lookupKey k (aggregateInteractions events)).isSome = true ↔
      ∃ e ∈ events, eventKey e = k) ∧
    edgeFrequency (aggregateInteractions events) k =
      (events.filter fun e => decide (eventKey e = k)).length := by
  constructor
  · have h := present_foldl events [] k
    simpa [lookupKey_nil] using h
  · unfold edgeFrequency aggregateInteractions
    rw [keyVal_foldl events [] k]
    have h0 : keyVal [] k = EdgeData.init := rfl
    rw [h0, count_foldl_update]
    simp [EdgeData.init]

/-- C5: a key's stored contexts are exactly the contexts of the first at most
three events for that key in stream order, hence at most three of them, and
an event arriving after the third never modifies the stored contexts. -/
theorem c5_contexts_first_three (events : List InteractionEvent)
    (k : String × String) :
    edgeContexts (aggregateInteractions events) k =
      ((events.filter fun e => decide (eventKey e = k)).map
        fun e => e.context).take 3 ∧
    (edgeContexts (aggregateInteractions events) k).length ≤ 3 ∧
    (∀ e' : InteractionEvent,
      3 ≤ (events.filter fun e => decide (eventKey e = k)).length →
      edgeContexts (aggregateInteractions (events ++ [e'])) k =
        edgeContexts (aggregateInteractions events) k) := by
  have hmain : ∀ evs : List InteractionEvent,
      edgeContexts (aggregateInteractions evs) k =
        ((evs.filter fun e => decide (eventKey e = k)).map
          fun e => e.context).take 3 := by
    intro evs
    unfold edgeContexts aggregateInteractions
    rw [keyVal_foldl evs [] k]
    have h0 : keyVal [] k = EdgeData.init := rfl
    rw [h0, contexts_foldl_update _ _ (by simp [EdgeData.init])]
    rfl
  refine ⟨hmain events, ?_, ?_⟩
  · rw [hmain events, List.length_take]
    exact min_le_left _ _
  · intro e' hlen
    rw [hmain events, hmain (events ++ [e'])]
    rw [List.filter_append, List.map_append]
    exact take3_append _ _ (by simpa using hlen)

/-- C10: every aggregated event increments exactly one bucket of the type
histogram, so the histogram's buckets sum to the record's frequency. -/
theorem c10_histogram_sums_to_frequency (events : List InteractionEvent)
    (k : String × String) :
    typesTotal (keyVal (aggregateInteractions events) k) =
      edgeFrequency (aggregateInteractions events) k := by
  unfold edgeFrequency aggregateInteractions
  rw [keyVal_foldl events [] k]
  have h0 : keyVal [] k = EdgeData.init := rfl
  rw [h0, typesTotal_foldl_update, count_foldl_update]
  rfl

/-! Lemmas about the Graph Builder. -/

theorem addNode_edges (g : DiGraph) (v : String) :
    (addNode g v).edges = g.edges := by
  unfold addNode
  split <;> rfl

theorem edgeKeys_addEdge (g : DiGraph) (s t : String) (w : Nat) :
    edgeKeys (addEdge g s t w) =
      if (s, t) ∈ edgeKeys g then edgeKeys g else edgeKeys g ++ [(s, t)] := by
  unfold addEdge edgeKeys
  have he : (addNode (addNode g s) t).edges = g.edges := by
    rw [addNode_edges, addNode_edges]
  by_cases hp : ((s, t) ∈ g.edges.map Prod.fst)
  · have hsome : (lookupKey (s, t) (addNode (addNode g s) t).edges).isSome
        = true := by
      rw [he]
      exact (lookupKey_isSome_iff _ _).mpr hp
    rw [if_pos hsome, if_pos hp]
    simp only
    rw [he, keys_updateAt]
  · have hnone : lookupKey (s, t) (addNode (addNode g s) t).edges = none := by
      rw [he, lookupKey_eq_none_iff]
      exact hp
    rw [if_neg (by simp [hnone]), if_neg hp]
    simp only
    rw [he, List.map_append]
    rfl

theorem nodup_edgeKeys_addEdge {g : DiGraph} (s t : String) (w : Nat)
    (h : (edgeKeys g).Nodup) : (edgeKeys (addEdge g s t w)).Nodup := by
  rw [edgeKeys_addEdge]
  by_cases hp : (s, t) ∈ edgeKeys g
  · rw [if_pos hp]; exact h
  · rw [if_neg hp]
    rw [List.nodup_append]
    exact ⟨h, List.nodup_singleton _, by simpa using hp⟩

theorem mem_edgeKeys_addEdge (g : DiGraph) (s t : String) (w : Nat)
    (k : String × String) :
    k ∈ edgeKeys (addEdge g s t w) ↔ k ∈ edgeKeys g ∨ k = (s, t) := by
  rw [edgeKeys_addEdge]
  by_cases hp : (s, t) ∈ edgeKeys g
  · rw [if_pos hp]
    constructor
    · exact Or.inl
    · rintro (h | rfl)
      · exact h
      · exact hp
  · rw [if_neg hp]
    simp [List.mem_append]

theorem weightOf_addEdge (g : DiGraph) (s t : String) (w : Nat)
    (k : String × String) :
    weightOf (addEdge g s t w) k =
      weightOf g k + if k = (s, t) then w else 0 := by
  unfold addEdge weightOf
  have he : (addNode (addNode g s) t).edges = g.edges := by
    rw [addNode_edges, addNode_edges]
  by_cases hp : (lookupKey (s, t) (addNode (addNode g s) t).edges).isSome = true
  · rw [if_pos hp]
    simp only
    rw [he] at hp ⊢
    rw [lookupKey_updateAt]
    by_cases hk : k = (s, t)
    · rw [if_pos hk, if_pos hk]
      rcases Option.isSome_iff_exists.mp hp with ⟨v, hv⟩
      rw [hk, hv]
      rfl
    · rw [if_neg hk, if_neg hk]
      omega
  · rw [if_neg hp]
    simp only
    rw [he] at hp ⊢
    have hnone : lookupKey (s, t) g.edges = none :=
      Option.not_isSome_iff_eq_none.mp hp
    by_cases hk : k = (s, t)
    · subst hk
      rw [lookupKey_append_none _ _ hnone, lookupKey_cons, if_pos rfl,
        hnone]
      simp
    · rw [if_neg hk]
      cases hacc : lookupKey k g.edges with
      | none =>
        rw [lookupKey_append_none _ _ hacc, lookupKey_cons,
          if_neg (fun hc => hk hc.symm), lookupKey_nil]
        simp [hacc]
      | some v =>
        rw [lookupKey_append_some _ _ hacc]
        simp [hacc]

theorem sumFreqKey_cons (r : AggregatedRow) (rest : List AggregatedRow)
    (k : String × String) :
    sumFreqKey (r :: rest) k =
      (if (r.source, r.target) = k then r.frequency else 0) +
        sumFreqKey rest k := by
  unfold sumFreqKey
  rw [List.filter_cons]
  by_cases h : (r.source, r.target) = k
  · simp [h]
  · simp [h]

theorem weightOf_foldl (rows : List AggregatedRow) (g : DiGraph)
    (k : String × String) :
    weightOf (rows.foldl (fun g r => addEdge g r.source r.target r.frequency) g)
        k = weightOf g k + sumFreqKey rows k := by
  induction rows generalizing g with
  | nil => simp [sumFreqKey]
  | cons r rest ih =>
    simp only [List.foldl_cons]
    rw [ih, weightOf_addEdge, sumFreqKey_cons]
    by_cases h : k = (r.source, r.target)
    · rw [if_pos h, if_pos h.symm]
      omega
    · rw [if_neg h, if_neg (fun hc => h hc.symm)]
      omega

theorem weightOf_buildNetwork (rows : List AggregatedRow)
    (k : String × String) :
    weightOf (buildNetwork rows) k = sumFreqKey rows k := by
  unfold buildNetwork
  rw [weightOf_foldl]
  simp [weightOf, lookupKey_nil]

theorem nodup_edgeKeys_foldl (rows : List AggregatedRow) (g : DiGraph)
    (h : (edgeKeys g).Nodup) :
    (edgeKeys
      (rows.foldl (fun g r => addEdge g r.source r.target r.frequency) g)).Nodup := by
  induction rows generalizing g with
  | nil => exact h
  | cons r rest ih =>
    simp only [List.foldl_cons]
    exact ih _ (nodup_edgeKeys_addEdge _ _ _ h)

theorem nodup_edgeKeys_buildNetwork (rows : List AggregatedRow) :
    (edgeKeys (buildNetwork rows)).Nodup :=
  nodup_edgeKeys_foldl rows ⟨[], []⟩ (by simp [edgeKeys])

theorem mem_edgeKeys_foldl (rows : List AggregatedRow) (g : DiGraph)
    (k : String × String) :
    k ∈ edgeKeys
        (rows.foldl (fun g r => addEdge g r.source r.target r.frequency) g) ↔
      k ∈ edgeKeys g ∨ ∃ r ∈ rows, (r.source, r.target) = k := by
  induction rows generalizing g with
  | nil => simp
  | cons r rest ih =>
    simp only [List.foldl_cons]
    rw [ih, mem_edgeKeys_addEdge]
    constructor
    · rintro (⟨h | h⟩ | ⟨r', hr', hk⟩)
      · exact Or.inl h
      · exact Or.inr ⟨r, List.mem_cons_self r rest, h.symm⟩
      · exact Or.inr ⟨r', List.mem_cons_of_mem r hr', hk⟩
    · rintro (h | ⟨r', hr', hk⟩)
      · exact Or.inl (Or.inl h)
      · rcases List.mem_cons.mp hr' with rfl | hr'
        · exact Or.inl (Or.inr hk.symm)
        · exact Or.inr ⟨r', hr', hk⟩

theorem mem_edgeKeys_buildNetwork (rows : List AggregatedRow)
    (k : String × String) :
    k ∈ edgeKeys (buildNetwork rows) ↔
      ∃ r ∈ rows, (r.source, r.target) = k := by
  unfold buildNetwork
  rw [mem_edgeKeys_foldl]
  simp [edgeKeys]

/-! Weighted-degree lemmas. -/

theorem filter_src_updateAt (es : List ((String × String) × Nat))
    (k : String × String) (f : Nat → Nat) (v : String) :
    (updateAt es k f).filter (fun kv => decide (kv.1.1 = v)) =
      updateAt (es.filter fun kv => decide (kv.1.1 = v)) k f := by
  induction es with
  | nil => rfl
  | cons kv rest ih =>
    rw [updateAt_cons]
    have hfst : (if kv.1 = k then (kv.1, f kv.2) else kv).1 = kv.1 := by
      split <;> rfl
    have hcond : (decide ((if kv.1 = k then (kv.1, f kv.2) else kv).1.1 = v))
        = (decide (kv.1.1 = v)) := by rw [hfst]
    rw [List.filter_cons, List.filter_cons, hcond]
    by_cases hv : kv.1.1 = v
    · rw [if_pos (decide_eq_true hv), if_pos (decide_eq_true hv), ih,
        updateAt_cons]
    · rw [if_neg (fun hc => hv (of_decide_eq_true hc)),
        if_neg (fun hc => hv (of_decide_eq_true hc)), ih]

theorem sum_updateAt_add (es : List ((String × String) × Nat))
    (k : String × String) (w : Nat)
    (hnd : (es.map Prod.fst).Nodup) (hmem : k ∈ es.map Prod.fst) :
    ((updateAt es k (fun w0 => w0 + w)).map fun kv => kv.2).sum =
      ((es.map fun kv => kv.2).sum) + w := by
  induction es with
  | nil => simp at hmem
  | cons kv rest ih =>
    simp only [List.map_cons, List.nodup_cons] at hnd
    simp only [List.map_cons, List.mem_cons] at hmem
    rw [updateAt_cons]
    by_cases hk : kv.1 = k
    · rw [if_pos hk]
      have hnot : k ∉ rest.map Prod.fst := hk ▸ hnd.1
      rw [updateAt_eq_of_not_mem _ hnot]
      simp only [List.map_cons, List.sum_cons]
      omega
    · rw [if_neg hk]
      have hmem' : k ∈ rest.map Prod.fst := by
        rcases hmem with h | h
        · exact absurd h.symm hk
        · exact h
      simp only [List.map_cons, List.sum_cons]
      rw [ih hnd.2 hmem']
      omega

theorem outWeight_addEdge (g : DiGraph) (s t : String) (w : Nat) (v : String)
    (hnd : (edgeKeys g).Nodup) :
    outWeight (addEdge g s t w) v =
      outWeight g v + if s = v then w else 0 := by
  unfold addEdge outWeight
  have he : (addNode (addNode g s) t).edges = g.edges := by
    rw [addNode_edges, addNode_edges]
  by_cases hp : (lookupKey (s, t) (addNode (addNode g s) t).edges).isSome = true
  · rw [if_pos hp]
    simp only
    rw [he] at hp ⊢
    rw [filter_src_updateAt]
    by_cases hsv : s = v
    · subst hsv
      have hmemes : (s, t) ∈ g.edges.map Prod.fst :=
        (lookupKey_isSome_iff _ _).mp hp
      rcases List.mem_map.mp hmemes with ⟨kv, hkv, hfst⟩
      have hkvfilter : kv ∈ g.edges.filter (fun kv => decide (kv.1.1 = s)) :=
        List.mem_filter.mpr ⟨hkv, by simp [hfst]⟩
      have hmemf : (s, t) ∈
          (g.edges.filter fun kv => decide (kv.1.1 = s)).map Prod.fst :=
        List.mem_map.mpr ⟨kv, hkvfilter, hfst⟩
      have hndf : ((g.edges.filter fun kv =>
          decide (kv.1.1 = s)).map Prod.fst).Nodup :=
        ((List.filter_sublist _).map Prod.fst).nodup hnd
      rw [sum_updateAt_add _ _ _ hndf hmemf, if_pos rfl]
    · have hnotmem : (s, t) ∉
          (g.edges.filter fun kv => decide (kv.1.1 = v)).map Prod.fst := by
        intro hc
        rcases List.mem_map.mp hc with ⟨kv, hkvf, hfst⟩
        have h2 := (List.mem_filter.mp hkvf).2
        rw [hfst] at h2
        exact hsv (by simpa using h2)
      rw [updateAt_eq_of_not_mem _ hnotmem, if_neg hsv]
      omega
  · rw [if_neg hp]
    simp only
    rw [he]
    rw [List.filter_append, List.map_append, List.sum_append]
    by_cases hsv : s = v
    · subst hsv
      simp
    · simp [hsv]

theorem sumFreqBySource_cons (r : AggregatedRow) (rest : List AggregatedRow)
    (v : String) :
    sumFreqBySource (r :: rest) v =
      (if r.source = v then r.frequency else 0) + sumFreqBySource rest v := by
  unfold sumFreqBySource
  rw [List.filter_cons]
  by_cases h : r.source = v
  · simp [h]
  · simp [h]

theorem outWeight_foldl (rows : List AggregatedRow) (g : DiGraph) (v : String)
    (hnd : (edgeKeys g).Nodup) :
    outWeight (rows.foldl (fun g r => addEdge g r.source r.target r.frequency) g)
        v = outWeight g v + sumFreqBySource rows v := by
  induction rows generalizing g with
  | nil => simp [sumFreqBySource]
  | cons r rest ih =>
    simp only [List.foldl_cons]
    rw [ih _ (nodup_edgeKeys_addEdge _ _ _ hnd),
      outWeight_addEdge _ _ _ _ _ hnd, sumFreqBySource_cons]
    omega

theorem outWeight_buildNetwork (rows : List AggregatedRow) (v : String) :
    outWeight (buildNetwork rows) v = sumFreqBySource rows v := by
  unfold buildNetwork
  rw [outWeight_foldl _ _ _ (by simp [edgeKeys])]
  simp [outWeight]

theorem neighbors_weight_sum (g : DiGraph) (v : String)
    (hnd : (edgeKeys g).Nodup) :
    ((neighbors g v).map fun n => weightOf g (v, n)).sum = outWeight g v := by
  unfold neighbors outWeight
  rw [List.map_map]
  apply congrArg List.sum
  apply List.map_congr_left
  intro kv hkv
  have h1 : kv.1.1 = v := by simpa using (List.mem_filter.mp hkv).2
  have h2 : (v, kv.1.2) = kv.1 := by rw [← h1]
  show weightOf g (v, kv.1.2) = kv.2
  rw [h2]
  unfold weightOf
  rw [lookupKey_of_mem_nodup hnd (List.mem_filter.mp hkv).1]
  rfl

/-! The claim theorems about the Extractor, the Graph Builder and the
Metrics Engine. -/

theorem eventsFor_eq_map_filter (tv : List String)
    (others : List (String × List String)) (ch : Nat)
    (sentences : List String) (i : Nat) (s : String)
    (h : hasAnyVariant tv s = true) :
    eventsForSentence tv others ch sentences i s =
      (others.filter fun cv =>
        decide (cv.1 ≠ TARGET_CHARACTER) && hasAnyVariant cv.2 s).map
        (fun cv => mkEvent cv.1 ch sentences i s) := by
  unfold eventsForSentence
  rw [if_pos h]
  induction others with
  | nil => rfl
  | cons cv rest ih =>
    rw [List.flatMap_cons, List.filter_cons]
    by_cases h1 : cv.1 = TARGET_CHARACTER
    · rw [if_pos h1, if_neg (by simp [h1])]
      simpa using ih
    · rw [if_neg h1]
      by_cases h2 : hasAnyVariant cv.2 s = true
      · rw [if_pos h2, if_pos (by simp [h1, h2])]
        simp only [List.map_cons, List.singleton_append]
        rw [ih]
      · rw [if_neg h2, if_neg (by simp [h2])]
        simpa using ih

/-- C7: a sentence at index `i` of the segmented sequence that mentions the
focal character and exactly two distinct other cataloged characters yields
exactly two events, differing only in `target` and sharing the identical
context `sentences[max(0,i-1):min(len,i+2)]` rejoined with the sentence
delimiter. -/
theorem c7_two_characters_two_events (tv : List String)
    (others : List (String × List String)) (ch : Nat)
    (sentences : List String) (i : Nat) (s : String)
    (c1 c2 : String × List String)
    (hidx : sentences[i]? = some s)
    (htarget : hasAnyVariant tv s = true)
    (hothers : others.filter (fun cv =>
      decide (cv.1 ≠ TARGET_CHARACTER) && hasAnyVariant cv.2 s) = [c1, c2])
    (hdistinct : c1.1 ≠ c2.1) :
    ∃ e1 e2 : InteractionEvent,
      eventsForSentence tv others ch sentences i s = [e1, e2] ∧
      e1.target = c1.1 ∧ e2.target = c2.1 ∧ e1 ≠ e2 ∧
      e2 = { e1 with target := c2.1 } ∧
      e1.context = String.intercalate "。" (contextWindow sentences i) ∧
      e1.context = e2.context := by
  refine ⟨mkEvent c1.1 ch sentences i s, mkEvent c2.1 ch sentences i s,
    ?_, rfl, rfl, ?_, rfl, rfl, rfl⟩
  · rw [eventsFor_eq_map_filter tv others ch sentences i s htarget, hothers]
    rfl
  · intro hcontra
    exact hdistinct (congrArg InteractionEvent.target hcontra)

/-- C7 witness: the concrete sentence 薛寶釵同乙丙 at index 1, with cataloged
characters 乙 and 丙 besides the focal character, yields exactly the two
events. -/
theorem c7_two_characters_two_events_witness :
    ∃ e1 e2 : InteractionEvent,
      eventsForSentence ["薛寶釵"]
        [("薛寶釵", ["薛寶釵"]), ("乙", ["乙"]), ("丙", ["丙"])] 4
        ["甲", "薛寶釵同乙丙", "丁"] 1 "薛寶釵同乙丙" = [e1, e2] ∧
      e1.target = ("乙", ["乙"]).1 ∧ e2.target = ("丙", ["丙"]).1 ∧ e1 ≠ e2 ∧
      e2 = { e1 with target := ("丙", ["丙"]).1 } ∧
      e1.context = String.intercalate "。"
        (contextWindow ["甲", "薛寶釵同乙丙", "丁"] 1) ∧
      e1.context = e2.context :=
  c7_two_characters_two_events ["薛寶釵"]
    [("薛寶釵", ["薛寶釵"]), ("乙", ["乙"]), ("丙", ["丙"])] 4
    ["甲", "薛寶釵同乙丙", "丁"] 1 "薛寶釵同乙丙" ("乙", ["乙"]) ("丙", ["丙"])
    (by decide) (by decide) (by decide) (by decide)

/-- C2 counterexample: a self-loop row is accepted by the Graph Builder and
added to the graph with its weight, with no error of any kind. -/
theorem c2_counterexample :
    buildNetwork [⟨"甲", "甲", 5⟩] = ⟨["甲"], [(("甲", "甲"), 5)]⟩ ∧
    weightOf (buildNetwork [⟨"甲", "甲", 5⟩]) ("甲", "甲") = 5 := by
  exact ⟨by decide, by decide⟩

/-- C2 amended: a self-loop edge reaching the Graph Builder is neither
rejected nor dropped: it is added to the graph like any other edge, with its
weight equal to the summed frequency of its key. -/
theorem c2_self_loop_added (rows : List AggregatedRow) (s : String)
    (h : ∃ r ∈ rows, r.source = s ∧ r.target = s) :
    (s, s) ∈ edgeKeys (buildNetwork rows) ∧
    weightOf (buildNetwork rows) (s, s) = sumFreqKey rows (s, s) := by
  constructor
  · rcases h with ⟨r, hr, h1, h2⟩
    exact (mem_edgeKeys_buildNetwork rows (s, s)).mpr
      ⟨r, hr, by rw [h1, h2]⟩
  · exact weightOf_buildNetwork rows (s, s)

/-- C2 amended witness: the single self-loop row (甲, 甲, 5) produces the
edge (甲, 甲) with weight 5. -/
theorem c2_self_loop_added_witness :
    ("甲", "甲") ∈ edgeKeys (buildNetwork [⟨"甲", "甲", 5⟩]) ∧
    weightOf (buildNetwork [⟨"甲", "甲", 5⟩]) ("甲", "甲") =
      sumFreqKey [⟨"甲", "甲", 5⟩] ("甲", "甲") :=
  c2_self_loop_added [⟨"甲", "甲", 5⟩] "甲"
    ⟨⟨"甲", "甲", 5⟩, List.mem_singleton.mpr rfl, rfl, rfl⟩

/-- C3: the Graph Builder produces exactly one directed edge per distinct
`(source, target)` key occurring in the input, each edge's weight is the sum
of all frequencies mapped to its key, and in particular two rows for the same
key with frequencies 5 and 7 yield a single edge of weight 12. -/
theorem c3_one_edge_per_key_weights_summed (rows : List AggregatedRow) :
    (edgeKeys (buildNetwork rows)).Nodup ∧
    (∀ k, k ∈ edgeKeys (buildNetwork rows) ↔
      ∃ r ∈ rows, (r.source, r.target) = k) ∧
    (∀ k, weightOf (buildNetwork rows) k = sumFreqKey rows k) ∧
    weightOf (buildNetwork [⟨"a", "b", 5⟩, ⟨"a", "b", 7⟩]) ("a", "b") = 12 ∧
    (buildNetwork [⟨"a", "b", 5⟩, ⟨"a", "b", 7⟩]).edges.length = 1 := by
  exact ⟨nodup_edgeKeys_buildNetwork rows,
    mem_edgeKeys_buildNetwork rows,
    weightOf_buildNetwork rows,
    by decide, by decide⟩

/-- C9: when the focal character is a node of the built graph, the Metrics
Engine's weighted degree for it is reported (without error) as the sum of
`frequency` over all input rows whose source is the focal character. -/
theorem c9_weighted_degree_eq_outgoing_frequency (rows : List AggregatedRow)
    (focal : String) (h : focal ∈ (buildNetwork rows).nodes) :
    focalWeightedDegree (buildNetwork rows) focal =
      .ok (sumFreqBySource rows focal) := by
  unfold focalWeightedDegree neighborsE
  rw [if_pos h]
  dsimp only
  rw [neighbors_weight_sum _ _ (nodup_edgeKeys_buildNetwork rows),
    outWeight_buildNetwork]

/-- C9 witness: for the single row (薛寶釵, 乙, 5) the focal weighted degree
is reported as the outgoing frequency sum. -/
theorem c9_weighted_degree_eq_outgoing_frequency_witness :
    focalWeightedDegree (buildNetwork [⟨"薛寶釵", "乙", 5⟩]) "薛寶釵" =
      .ok (sumFreqBySource [⟨"薛寶釵", "乙", 5⟩] "薛寶釵") :=
  c9_weighted_degree_eq_outgoing_frequency [⟨"薛寶釵", "乙", 5⟩] "薛寶釵"
    (by decide)

/-- C1: evaluation of the Metrics Engine at the spec's own scenario. On a
graph with exactly one node and zero edges whose node is not the focal
character, `calculate_centrality_metrics` raises at the unguarded
`G.neighbors(target_char)` call of the weighted-degree step instead of
returning every metric as its documented default; when the single node is the
focal character itself the same computation succeeds with all degree metrics
0. -/
theorem c1_single_node_weighted_degree_raises :
    calculateCentralityMetrics ⟨["甲"], []⟩ TARGET_CHARACTER =
      .error "node not in digraph" ∧
    (DiGraph.nodes ⟨["甲"], []⟩).length = 1 ∧
    DiGraph.edges ⟨["甲"], []⟩ = [] ∧
    calculateCentralityMetrics ⟨[TARGET_CHARACTER], []⟩ TARGET_CHARACTER =
      .ok ⟨0, 0, 0, 0⟩ := by
  refine ⟨?_, rfl, rfl, ?_⟩
  · rfl
  · rfl

end HLM
